import Mathlib

/-!
# Verification of the opsml-core storage abstraction

A shallow embedding of the storage-client capability contract of the
opsml-core repository (local / GCS / S3 / HTTP storage clients exposed as
`PyLocalFSStorageClient` etc.).  The repository ships only the Python test
suite and binding declarations; the storage implementation itself is not
part of the provided sources, so the operations below are modelled from the
specification's contract (path model, find / exists / put / get / rm /
iterfile / generate_presigned_url, transfer-engine failure policy) and are
checked against the behaviours the tests pin down.
-/

namespace OpsmlStorage

/-- Modelled from the spec: a `StoragePath` is an ordered sequence of
segments, serialized with forward-slash separation.  We represent it as the
raw list of segments (the `Key` into the flat object namespace). -/
abbrev Key := List String

/-- Object contents: a finite sequence of bytes (modelled as naturals). -/
abbrev Bytes := List Nat

/-- Modelled from the spec: a flat-namespace object store (the state of one
backend), an association list from storage paths to object bytes.  Lookup
takes the first matching entry. -/
abbrev ObjectStore := List (Key × Bytes)

/-- Modelled from the spec: the error taxonomy of the storage contract. -/
inductive StorageError where
  | invalidPath
  | notFound
  | invalidOperation
  | permissionDenied
  | transient
  | transferError
  | unsupportedOperation
deriving DecidableEq, Repr

/-- First-match lookup of an object at a key. -/
def lookupKey : ObjectStore → Key → Option Bytes
  | [], _ => none
  | (k, v) :: rest, q => if k = q then some v else lookupKey rest q

/-- Remove every entry stored exactly at key `q`. -/
def removeKey (st : ObjectStore) (q : Key) : ObjectStore :=
  st.filter fun kv => decide (kv.1 ≠ q)

/-- Overwrite/insert the object at key `q` (overwrites an existing object at
the same path, per the spec's `put` contract). -/
def setKey (st : ObjectStore) (q : Key) (v : Bytes) : ObjectStore :=
  (q, v) :: removeKey st q

/-- `underPath p k` holds when the object key `k` lies at or under the
path `p` (segment-wise prefix test; directory-as-prefix semantics for
flat-namespace backends). -/
def underPath : Key → Key → Bool
  | [], _ => true
  | _ :: _, [] => false
  | a :: as, b :: bs => decide (a = b) && underPath as bs

/-- Modelled from the spec: `exists(path)` is true iff `path` resolves to an
object or has at least one descendant object. -/
def existsPath (st : ObjectStore) (p : Key) : Bool :=
  st.any fun kv => underPath p kv.1

/-- `p` has at least one strict descendant object, i.e. it denotes a
directory (a prefix with at least one descendant object). -/
def hasProperDescendant (st : ObjectStore) (p : Key) : Bool :=
  st.any fun kv => underPath p kv.1 && decide (kv.1 ≠ p)

/-- Strict lexicographic comparison of character sequences. -/
def charListLt : List Char → List Char → Bool
  | [], [] => false
  | [], _ :: _ => true
  | _ :: _, [] => false
  | a :: as, b :: bs => if a = b then charListLt as bs else decide (a < b)

/-- Strict lexicographic comparison of path segments. -/
def strLt (a b : String) : Bool := charListLt a.data b.data

/-- Segment-wise lexicographic comparison of storage paths (spec: ordering
is segment-wise; listings are returned in a deterministic stable order). -/
def lexLe : Key → Key → Bool
  | [], _ => true
  | _ :: _, [] => false
  | a :: as, b :: bs => if a = b then lexLe as bs else strLt a b

/-- Insertion step of the deterministic lexicographic sort. -/
def insertLex (x : Key) : List Key → List Key
  | [] => [x]
  | y :: ys => if lexLe x y then x :: y :: ys else y :: insertLex x ys

/-- Deterministic lexicographic sort of a list of storage paths. -/
def sortLex : List Key → List Key
  | [] => []
  | x :: xs => insertLex x (sortLex xs)

/-- Forward-slash serialization of a storage path. -/
def serializePath : Key → String
  | [] => ""
  | [s] => s
  | s :: rest => s ++ "/" ++ serializePath rest

/-- Modelled from the spec: `find(path)` lists all object paths at or under
`path`, recursively, in deterministic lexicographic order, serialized with
forward slashes.  A nonexistent path yields an empty sequence. -/
def findPaths (st : ObjectStore) (p : Key) : List String :=
  (sortLex ((st.map Prod.fst).filter (underPath p))).map serializePath

/-- Modelled from the spec: `rm(path, recursive)`.  With `recursive` it
deletes the entire subtree; without, it fails with `InvalidOperation` when
`path` has descendants, and otherwise deletes the object at `path`.
Deleting a nonexistent path is a no-op success. -/
def rmPath (st : ObjectStore) (p : Key) (recursive : Bool) :
    Except StorageError ObjectStore :=
  if recursive then
    .ok (st.filter fun kv => !underPath p kv.1)
  else if hasProperDescendant st p then
    .error .invalidOperation
  else
    .ok (removeKey st p)

/-- Modelled from the spec and the local-storage test: calling `rm` with the
`recursive` argument omitted uses the default `recursive = false`. -/
def rmPathDefault (st : ObjectStore) (p : Key) : Except StorageError ObjectStore :=
  rmPath st p false

/-- Modelled from the spec: the local filesystem side of a transfer, with
the same flat map-from-path-to-bytes shape as the remote store. -/
abbrev LocalFS := ObjectStore

/-- Modelled from the spec: `put(local_path, remote_path)` for a single
local file: uploads its bytes to `remote_path` (overwriting), with no prior
operation needed to create intermediate directory prefixes (directories are
virtual in flat-namespace backends).  A missing local file is an
unrecoverable per-file failure, surfaced as `TransferError`. -/
def putFile (localFs : LocalFS) (st : ObjectStore) (lpath rpath : Key) :
    Except StorageError ObjectStore :=
  match lookupKey localFs lpath with
  | some v => .ok (setKey st rpath v)
  | none => .error .transferError

/-- Map a remote key under `rpath` to its download target under `lpath`,
preserving the nested structure. -/
def retarget (lpath rpath k : Key) : Key :=
  lpath ++ k.drop rpath.length

/-- All store entries at or under a path, in store order. -/
def entriesUnder (st : ObjectStore) (p : Key) : ObjectStore :=
  st.filter fun kv => underPath p kv.1

/-- Modelled from the spec: `get(local_path, remote_path, recursive)`,
the mirror of `put`.  When `remote_path` denotes a directory and
`recursive` is false it fails with `InvalidOperation` before writing any
local file; with `recursive` it downloads the entire subtree, mapping each
remote object to `local_path/<relative-path>`.  A single missing object
fails with `NotFound`. -/
def getPath (st : ObjectStore) (localFs : LocalFS) (lpath rpath : Key)
    (recursive : Bool) : Except StorageError LocalFS :=
  if hasProperDescendant st rpath then
    if recursive then
      .ok (((entriesUnder st rpath).map fun kv =>
        (retarget lpath rpath kv.1, kv.2)) ++ localFs)
    else
      .error .invalidOperation
  else
    match lookupKey st rpath with
    | some v => .ok (setKey localFs lpath v)
    | none => .error .notFound

/-- Modelled from the spec: split an object's bytes into chunks of at most
`c` bytes each (the chunk size is clamped to at least 1 so the spec's
positive-`chunk_size` contract is total). -/
def chunkBytes (c : Nat) : Bytes → List Bytes
  | [] => []
  | b :: bs =>
    (b :: bs).take (max 1 c) :: chunkBytes c ((b :: bs).drop (max 1 c))
termination_by bs => bs.length
decreasing_by
  simp only [List.length_drop, List.length_cons]
  omega

/-- Modelled from the spec: `iterfile(path, chunk_size)` yields the finite
sequence of byte chunks of the object at `path`, and fails with `NotFound`
if `path` does not exist at call time. -/
def iterfile (st : ObjectStore) (p : Key) (c : Nat) :
    Except StorageError (List Bytes) :=
  match lookupKey st p with
  | some v => .ok (chunkBytes c v)
  | none => .error .notFound

/-- Modelled from the spec: `generate_presigned_url(path, expiration)`
returns a time-limited link embedding the object's path on an existing
path, and fails with `NotFound` on a nonexistent path. -/
def generate_presigned_url (st : ObjectStore) (p : Key) (expiration : Nat) :
    Except StorageError String :=
  if existsPath st p then
    .ok ("https://signed.example/" ++ serializePath p ++ "?expires="
      ++ toString expiration)
  else
    .error .notFound

/-- `needle` occurs as a contiguous substring of `hay`. -/
def containsStr (hay needle : String) : Prop :=
  ∃ a b, hay = a ++ needle ++ b

/-- Modelled from the spec: a transfer-engine work unit pairing one local
path with one remote path. -/
structure TransferItem where
  src : Key
  dst : Key
deriving DecidableEq, Repr

/-- Result of a multi-file transfer: either every item succeeded, or the
run stopped at the first failing item, surfacing a `TransferError` that
carries the first underlying failure, the state reached (already
transferred files kept in place, no rollback) and the number of items left
unattempted. -/
inductive TransferResult where
  | ok (st : ObjectStore)
  | failed (st : ObjectStore) (firstFailure : StorageError) (unattempted : Nat)
deriving DecidableEq, Repr

/-- Modelled from the spec: the transfer engine executes the work items
against the active adapter (`exec`), fail-fast: on the first item failure
it stops scheduling new items and reports the first failure together with
the count of items left unattempted; successful partial progress is not
undone. -/
def runTransfer (exec : ObjectStore → TransferItem → Except StorageError ObjectStore)
    (st : ObjectStore) : List TransferItem → TransferResult
  | [] => .ok st
  | i :: rest =>
    match exec st i with
    | .ok st' => runTransfer exec st' rest
    | .error e => .failed st e rest.length

/-! ## Helper lemmas -/

theorem underPath_refl (p : Key) : underPath p p = true := by
  induction p with
  | nil => rfl
  | cons a as ih => simp [underPath, ih]

theorem existsPath_eq_false (st : ObjectStore) (p : Key)
    (h : existsPath st p = false) : ∀ kv ∈ st, underPath p kv.1 = false := by
  simpa [existsPath, List.any_eq_false] using h

theorem existsPath_of_lookup (st : ObjectStore) (p : Key) (v : Bytes)
    (h : lookupKey st p = some v) : existsPath st p = true := by
  induction st with
  | nil => simp [lookupKey] at h
  | cons kv rest ih =>
    obtain ⟨k, w⟩ := kv
    by_cases hk : k = p
    · subst hk
      simp [existsPath, underPath_refl]
    · simp only [lookupKey, if_neg hk] at h
      simp [existsPath] at ih ⊢
      exact Or.inr (ih h)

/-- A store used as the concrete test scenario: the two objects of the
local-storage test, `a/cats.jpg` and `a/nested/really/deep/cats-2.jpg`. -/
def sampleStore : ObjectStore :=
  [(["a", "cats.jpg"], [1, 2, 3]),
   (["a", "nested", "really", "deep", "cats-2.jpg"], [4, 5])]

/-- A local filesystem holding one source file. -/
def sampleLocal : LocalFS := [(["assets", "cats.jpg"], [9, 9, 7])]

/-! ## Claims -/

/-- Claim C3: for every path that resolves to no object and has no
descendant objects, `find` returns an empty sequence and does not raise an
error. -/
theorem find_nonexistent_returns_empty (st : ObjectStore) (p : Key)
    (h : existsPath st p = false) : findPaths st p = [] := by
  have h' := existsPath_eq_false st p h
  have hfil : (st.map Prod.fst).filter (underPath p) = [] := by
    rw [List.filter_eq_nil_iff]
    intro k hk
    obtain ⟨kv, hkv, rfl⟩ := List.mem_map.mp hk
    simp [h' kv hkv]
  simp [findPaths, hfil, sortLex]

theorem find_nonexistent_returns_empty_witness :
    existsPath sampleStore ["zzz"] = false ∧ findPaths sampleStore ["zzz"] = [] :=
  ⟨by decide, find_nonexistent_returns_empty sampleStore ["zzz"] (by decide)⟩

/-- Claim C4: recursive deletion of an already-absent path succeeds without
error and leaves the store unchanged, and repeating the call is again a
no-op success. -/
theorem rm_absent_noop (st : ObjectStore) (p : Key)
    (h : existsPath st p = false) :
    rmPath st p true = .ok st ∧
      (rmPath st p true).bind (fun st1 => rmPath st1 p true) = .ok st := by
  have h' := existsPath_eq_false st p h
  have hfil : (st.filter fun kv => !underPath p kv.1) = st := by
    rw [List.filter_eq_self]
    intro kv hkv
    simp [h' kv hkv]
  refine ⟨by simp [rmPath, hfil], ?_⟩
  simp [rmPath, hfil, Except.bind]

theorem rm_absent_noop_witness :
    rmPath sampleStore ["zzz"] true = .ok sampleStore ∧
      (rmPath sampleStore ["zzz"] true).bind
        (fun st1 => rmPath st1 ["zzz"] true) = .ok sampleStore :=
  rm_absent_noop sampleStore ["zzz"] (by decide)

/-- Claim C9: the `recursive` argument of `rm` is optional, defaulting to
false, and `rm` with the argument omitted deletes a single object that has
no descendants, after which `exists` is false. -/
theorem rm_default_deletes_single_object (st : ObjectStore) (p : Key) (v : Bytes)
    (hobj : lookupKey st p = some v)
    (hnd : hasProperDescendant st p = false) :
    rmPathDefault st p = rmPath st p false ∧
      rmPathDefault st p = .ok (removeKey st p) ∧
      existsPath (removeKey st p) p = false := by
  have h' : ∀ kv ∈ st, (underPath p kv.1 && decide (kv.1 ≠ p)) = false := by
    simpa [hasProperDescendant, List.any_eq_false] using hnd
  refine ⟨rfl, by simp [rmPathDefault, rmPath, hnd], ?_⟩
  rw [existsPath, List.any_eq_false]
  intro kv hkv
  have hmem : kv ∈ st ∧ kv.1 ≠ p := by
    simpa [removeKey, List.mem_filter] using hkv
  have hb := h' kv hmem.1
  simp [hmem.2] at hb
  simp [hb]

theorem rm_default_deletes_single_object_witness :
    rmPathDefault sampleStore ["a", "cats.jpg"] =
        rmPath sampleStore ["a", "cats.jpg"] false ∧
      rmPathDefault sampleStore ["a", "cats.jpg"] =
        .ok (removeKey sampleStore ["a", "cats.jpg"]) ∧
      existsPath (removeKey sampleStore ["a", "cats.jpg"]) ["a", "cats.jpg"] = false :=
  rm_default_deletes_single_object sampleStore ["a", "cats.jpg"] [1, 2, 3]
    (by decide) (by decide)

/-- Claim C10: a single-file `put` to a remote path with arbitrarily many
segments succeeds with no prior operation creating intermediate directory
prefixes, and afterwards `exists` holds for the path itself and for every
prefix of it. -/
theorem put_deep_path_creates_prefixes (localFs st : ObjectStore) (f p : Key)
    (v : Bytes) (h : lookupKey localFs f = some v) :
    putFile localFs st f p = .ok (setKey st p v) ∧
      ∀ q : Key, underPath q p = true → existsPath (setKey st p v) q = true := by
  refine ⟨by simp [putFile, h], ?_⟩
  intro q hq
  simp [existsPath, setKey, hq]

theorem put_deep_path_creates_prefixes_witness :
    putFile sampleLocal [] ["assets", "cats.jpg"] ["x", "y", "z", "w", "cats.jpg"] =
        .ok (setKey [] ["x", "y", "z", "w", "cats.jpg"] [9, 9, 7]) ∧
      existsPath (setKey [] ["x", "y", "z", "w", "cats.jpg"] [9, 9, 7]) ["x", "y"] = true :=
  ⟨(put_deep_path_creates_prefixes sampleLocal [] ["assets", "cats.jpg"]
      ["x", "y", "z", "w", "cats.jpg"] [9, 9, 7] (by decide)).1,
   (put_deep_path_creates_prefixes sampleLocal [] ["assets", "cats.jpg"]
      ["x", "y", "z", "w", "cats.jpg"] [9, 9, 7] (by decide)).2 ["x", "y"] (by decide)⟩

theorem lookupKey_setKey_self (st : ObjectStore) (q : Key) (v : Bytes) :
    lookupKey (setKey st q v) q = some v := by
  simp [setKey, lookupKey]

theorem hasProperDescendant_setKey (st : ObjectStore) (p : Key) (v : Bytes)
    (h : hasProperDescendant st p = false) :
    hasProperDescendant (setKey st p v) p = false := by
  have h' : ∀ kv ∈ st, (underPath p kv.1 && decide (kv.1 ≠ p)) = false := by
    simpa [hasProperDescendant, List.any_eq_false] using h
  rw [hasProperDescendant, List.any_eq_false]
  intro kv hkv
  rcases List.mem_cons.mp hkv with hhd | htl
  · subst hhd; simp
  · have hmem : kv ∈ st := (List.mem_filter.mp htl).1
    simpa using h' kv hmem

theorem underPath_take_drop (p : Key) :
    ∀ k : Key, underPath p k = true → p ++ k.drop p.length = k := by
  induction p with
  | nil => intro k _; simp
  | cons a as ih =>
    intro k hk
    cases k with
    | nil => simp [underPath] at hk
    | cons b bs =>
      simp only [underPath, Bool.and_eq_true, decide_eq_true_eq] at hk
      obtain ⟨rfl, hbs⟩ := hk
      simpa using ih bs hbs

theorem retarget_injective_under (lpath rpath k k' : Key)
    (hk : underPath rpath k = true) (hk' : underPath rpath k' = true)
    (h : retarget lpath rpath k = retarget lpath rpath k') : k = k' := by
  have h2 : lpath ++ k.drop rpath.length = lpath ++ k'.drop rpath.length := h
  have hd : k.drop rpath.length = k'.drop rpath.length :=
    List.append_cancel_left h2
  calc k = rpath ++ k.drop rpath.length := (underPath_take_drop rpath k hk).symm
    _ = rpath ++ k'.drop rpath.length := by rw [hd]
    _ = k' := underPath_take_drop rpath k' hk'

theorem lookupKey_retarget (lpath rpath : Key) :
    ∀ entries : ObjectStore, (∀ kv ∈ entries, underPath rpath kv.1 = true) →
      ∀ k : Key, underPath rpath k = true →
        lookupKey (entries.map fun kv => (retarget lpath rpath kv.1, kv.2))
            (retarget lpath rpath k) = lookupKey entries k := by
  intro entries
  induction entries with
  | nil => intro _ k _; rfl
  | cons kv rest ih =>
    intro hents k hk
    obtain ⟨k', v'⟩ := kv
    have hk' : underPath rpath k' = true := hents (k', v') (by simp)
    have htl : ∀ kv ∈ rest, underPath rpath kv.1 = true := by
      intro kv hkv; exact hents kv (List.mem_cons_of_mem _ hkv)
    by_cases he : k' = k
    · subst he
      simp [lookupKey]
    · have hne : retarget lpath rpath k' ≠ retarget lpath rpath k := by
        intro hc; exact he (retarget_injective_under lpath rpath k' k hk' hk hc)
      simp only [List.map_cons, lookupKey, if_neg hne, if_neg he]
      exact ih htl k hk

theorem lookupKey_entriesUnder (p : Key) :
    ∀ (st : ObjectStore) (k : Key), underPath p k = true →
      lookupKey (entriesUnder st p) k = lookupKey st k := by
  intro st
  induction st with
  | nil => intro k _; rfl
  | cons kv rest ih =>
    intro k hk
    obtain ⟨k', v'⟩ := kv
    by_cases he : k' = k
    · subst he
      simp [entriesUnder, List.filter_cons, hk, lookupKey]
    · rw [entriesUnder, List.filter_cons]
      by_cases hu : underPath p k' = true
      · simpa [hu, lookupKey, if_neg he, entriesUnder] using ih k hk
      · simp only [Bool.not_eq_true] at hu
        simpa [hu, lookupKey, if_neg he, entriesUnder] using ih k hk

theorem lookupKey_append_of_some (A B : ObjectStore) (k : Key) (v : Bytes)
    (h : lookupKey A k = some v) : lookupKey (A ++ B) k = some v := by
  induction A with
  | nil => simp [lookupKey] at h
  | cons kv rest ih =>
    obtain ⟨k', v'⟩ := kv
    by_cases he : k' = k
    · subst he
      simpa [lookupKey] using h
    · simp only [lookupKey, if_neg he] at h
      simpa [lookupKey, if_neg he] using ih h

/-- Claim C1: put of a local file followed by get at the same remote path
yields a local file with byte-identical content (round-trip), stated for
any store in which the remote path is not also a directory prefix. -/
theorem put_get_roundtrip (localFs st localFs2 : ObjectStore) (f p g : Key)
    (v : Bytes) (hf : lookupKey localFs f = some v)
    (hnd : hasProperDescendant st p = false) :
    ∃ st' lf, putFile localFs st f p = .ok st' ∧
      getPath st' localFs2 g p false = .ok lf ∧
      lookupKey lf g = lookupKey localFs f := by
  refine ⟨setKey st p v, setKey localFs2 g v, by simp [putFile, hf], ?_, ?_⟩
  · rw [getPath]
    rw [hasProperDescendant_setKey st p v hnd]
    simp [lookupKey_setKey_self]
  · rw [lookupKey_setKey_self, hf]

theorem put_get_roundtrip_witness :
    ∃ st' lf,
      putFile sampleLocal sampleStore ["assets", "cats.jpg"] ["b", "cats.jpg"] = .ok st' ∧
      getPath st' [] ["got", "cats.jpg"] ["b", "cats.jpg"] false = .ok lf ∧
      lookupKey lf ["got", "cats.jpg"] = lookupKey sampleLocal ["assets", "cats.jpg"] :=
  put_get_roundtrip sampleLocal sampleStore [] ["assets", "cats.jpg"]
    ["b", "cats.jpg"] ["got", "cats.jpg"] [9, 9, 7] (by decide) (by decide)

/-- Claim C5: `get` with `recursive = false` on a remote path that denotes
a directory fails with `InvalidOperation` and returns no local state (so no
file is written); with `recursive = true` it succeeds and the entire
subtree is downloaded: every remote object under the path is found at its
retargeted local path with identical bytes. -/
theorem get_directory_recursive_semantics (st localFs : ObjectStore)
    (lpath rpath : Key) (hdir : hasProperDescendant st rpath = true) :
    getPath st localFs lpath rpath false = .error .invalidOperation ∧
      getPath st localFs lpath rpath true =
        .ok (((entriesUnder st rpath).map fun kv =>
          (retarget lpath rpath kv.1, kv.2)) ++ localFs) ∧
      ∀ k v, underPath rpath k = true → lookupKey st k = some v →
        lookupKey (((entriesUnder st rpath).map fun kv =>
            (retarget lpath rpath kv.1, kv.2)) ++ localFs)
          (retarget lpath rpath k) = some v := by
  refine ⟨by simp [getPath, hdir], by simp [getPath, hdir], ?_⟩
  intro k v hk hv
  have hents : ∀ kv ∈ entriesUnder st rpath, underPath rpath kv.1 = true := by
    intro kv hkv
    exact (List.mem_filter.mp hkv).2
  apply lookupKey_append_of_some
  rw [lookupKey_retarget lpath rpath (entriesUnder st rpath) hents k hk]
  rw [lookupKey_entriesUnder rpath st k hk]
  exact hv

theorem get_directory_recursive_semantics_witness :
    getPath sampleStore [] ["dl"] ["a"] false = .error .invalidOperation ∧
      getPath sampleStore [] ["dl"] ["a"] true =
        .ok (((entriesUnder sampleStore ["a"]).map fun kv =>
          (retarget ["dl"] ["a"] kv.1, kv.2)) ++ []) ∧
      lookupKey (((entriesUnder sampleStore ["a"]).map fun kv =>
          (retarget ["dl"] ["a"] kv.1, kv.2)) ++ [])
        (retarget ["dl"] ["a"] ["a", "cats.jpg"]) = some [1, 2, 3] :=
  ⟨(get_directory_recursive_semantics sampleStore [] ["dl"] ["a"] (by decide)).1,
   (get_directory_recursive_semantics sampleStore [] ["dl"] ["a"] (by decide)).2.1,
   (get_directory_recursive_semantics sampleStore [] ["dl"] ["a"] (by decide)).2.2
     ["a", "cats.jpg"] [1, 2, 3] (by decide) (by decide)⟩

/-- Claim C6: a multi-file transfer in which some item fails unrecoverably
stops scheduling further items after the first failure, surfaces the first
failure together with the count of items left unattempted, keeps the state
reached by the already-transferred items (no rollback), and never reports
success. -/
theorem transfer_fail_fast
    (exec : ObjectStore → TransferItem → Except StorageError ObjectStore)
    (st0 stPre : ObjectStore) (pre post : List TransferItem)
    (bad : TransferItem) (e : StorageError)
    (hpre : runTransfer exec st0 pre = .ok stPre)
    (hbad : exec stPre bad = .error e) :
    runTransfer exec st0 (pre ++ bad :: post) = .failed stPre e post.length ∧
      ∀ stAny, runTransfer exec st0 (pre ++ bad :: post) ≠ .ok stAny := by
  have hmain : runTransfer exec st0 (pre ++ bad :: post) =
      .failed stPre e post.length := by
    induction pre generalizing st0 with
    | nil =>
      have hst : st0 = stPre := by
        simpa [runTransfer] using hpre
      subst hst
      simp [runTransfer, hbad]
    | cons i pre' ih =>
      rw [List.cons_append, runTransfer]
      rw [runTransfer] at hpre
      cases hexec : exec st0 i with
      | ok st1 =>
        rw [hexec] at hpre
        exact ih st1 hpre
      | error e' =>
        rw [hexec] at hpre
        simp at hpre
  exact ⟨hmain, fun stAny => by simp [hmain]⟩

/-- A per-item adapter action used to witness the transfer-engine policy:
uploads the item's bytes from `sampleLocal`, failing when the source file
is absent. -/
def sampleExec (st : ObjectStore) (i : TransferItem) :
    Except StorageError ObjectStore :=
  putFile sampleLocal st i.src i.dst

theorem transfer_fail_fast_witness :
    runTransfer sampleExec []
        [⟨["assets", "cats.jpg"], ["up", "one.jpg"]⟩,
         ⟨["assets", "missing.jpg"], ["up", "two.jpg"]⟩,
         ⟨["assets", "cats.jpg"], ["up", "three.jpg"]⟩] =
      .failed (setKey [] ["up", "one.jpg"] [9, 9, 7]) .transferError 1 :=
  (transfer_fail_fast sampleExec [] (setKey [] ["up", "one.jpg"] [9, 9, 7])
    [⟨["assets", "cats.jpg"], ["up", "one.jpg"]⟩]
    [⟨["assets", "cats.jpg"], ["up", "three.jpg"]⟩]
    ⟨["assets", "missing.jpg"], ["up", "two.jpg"]⟩ .transferError
    rfl rfl).1

theorem chunkBytes_flatten_aux (c : Nat) :
    ∀ (n : Nat) (bs : Bytes), bs.length ≤ n → (chunkBytes c bs).flatten = bs := by
  intro n
  induction n with
  | zero =>
    intro bs hb
    have : bs = [] := List.eq_nil_of_length_eq_zero (Nat.le_zero.mp hb)
    subst this
    simp [chunkBytes]
  | succ n ih =>
    intro bs hb
    match bs with
    | [] => simp [chunkBytes]
    | b :: bs' =>
      rw [chunkBytes, List.flatten_cons]
      rw [ih ((b :: bs').drop (max 1 c)) (by
        simp only [List.length_drop, List.length_cons]
        simp only [List.length_cons] at hb
        omega)]
      exact List.take_append_drop _ _

theorem chunkBytes_flatten (c : Nat) (bs : Bytes) :
    (chunkBytes c bs).flatten = bs :=
  chunkBytes_flatten_aux c bs.length bs le_rfl

theorem chunkBytes_length_le_aux (c : Nat) (hc : 0 < c) :
    ∀ (n : Nat) (bs : Bytes), bs.length ≤ n →
      ∀ ch ∈ chunkBytes c bs, ch.length ≤ c := by
  intro n
  induction n with
  | zero =>
    intro bs hb
    have : bs = [] := List.eq_nil_of_length_eq_zero (Nat.le_zero.mp hb)
    subst this
    simp [chunkBytes]
  | succ n ih =>
    intro bs hb ch hch
    match bs with
    | [] => simp [chunkBytes] at hch
    | b :: bs' =>
      rw [chunkBytes] at hch
      rcases List.mem_cons.mp hch with hhd | htl
      · subst hhd
        have h1 : ((b :: bs').take (max 1 c)).length ≤ max 1 c :=
          List.length_take_le _ _
        have h2 : max 1 c = c := by omega
        omega
      · exact ih ((b :: bs').drop (max 1 c)) (by
          simp only [List.length_drop, List.length_cons]
          simp only [List.length_cons] at hb
          omega) ch htl

/-- Claim C7: for an existing object and a positive chunk size, `iterfile`
yields a finite sequence of chunks each of length at most the chunk size
whose concatenation is the object's exact bytes; for a path with no object
it fails with `NotFound`. -/
theorem iterfile_chunks_spec (st : ObjectStore) (p : Key) (c : Nat)
    (v : Bytes) (hc : 0 < c) :
    (lookupKey st p = some v →
      iterfile st p c = .ok (chunkBytes c v) ∧
        (∀ ch ∈ chunkBytes c v, ch.length ≤ c) ∧
        (chunkBytes c v).flatten = v) ∧
      (lookupKey st p = none → iterfile st p c = .error .notFound) := by
  constructor
  · intro hv
    refine ⟨by simp [iterfile, hv], ?_, chunkBytes_flatten c v⟩
    exact chunkBytes_length_le_aux c hc v.length v le_rfl
  · intro hv
    simp [iterfile, hv]

theorem iterfile_chunks_spec_witness :
    (iterfile sampleStore ["a", "cats.jpg"] 2 = .ok [[1, 2], [3]] ∧
        (chunkBytes 2 [1, 2, 3]).flatten = [1, 2, 3]) ∧
      iterfile sampleStore ["missing"] 2 = .error .notFound := by
  refine ⟨⟨?_, ?_⟩, ?_⟩
  · have h := ((iterfile_chunks_spec sampleStore ["a", "cats.jpg"] 2 [1, 2, 3]
      (by decide)).1 (by decide)).1
    rw [h]
    norm_num [chunkBytes]
  · exact ((iterfile_chunks_spec sampleStore ["a", "cats.jpg"] 2 [1, 2, 3]
      (by decide)).1 (by decide)).2.2
  · exact (iterfile_chunks_spec sampleStore ["missing"] 2 [] (by decide)).2
      (by decide)

/-- Claim C8: `generate_presigned_url` on a path holding an object returns
a non-empty string containing the path's forward-slash serialization; on a
path where nothing exists it fails with `NotFound`. -/
theorem presigned_url_spec (st : ObjectStore) (p : Key) (expiration : Nat)
    (v : Bytes) :
    (lookupKey st p = some v →
      ∃ url, generate_presigned_url st p expiration = .ok url ∧
        url ≠ "" ∧ containsStr url (serializePath p)) ∧
      (existsPath st p = false →
        generate_presigned_url st p expiration = .error .notFound) := by
  constructor
  · intro hv
    have hex : existsPath st p = true := existsPath_of_lookup st p v hv
    refine ⟨"https://signed.example/" ++ serializePath p ++ "?expires="
      ++ toString expiration, by simp [generate_presigned_url, hex], ?_, ?_⟩
    · intro hempty
      have hlen := congrArg String.length hempty
      simp only [String.length_append] at hlen
      have h23 : ("https://signed.example/" : String).length = 23 := rfl
      have h0 : ("" : String).length = 0 := rfl
      omega
    · exact ⟨"https://signed.example/", "?expires=" ++ toString expiration,
        by simp [String.append_assoc]⟩
  · intro hex
    simp [generate_presigned_url, hex]

theorem presigned_url_spec_witness :
    (∃ url, generate_presigned_url sampleStore ["a", "cats.jpg"] 1 = .ok url ∧
        url ≠ "" ∧ containsStr url (serializePath ["a", "cats.jpg"])) ∧
      generate_presigned_url sampleStore ["missing"] 1 = .error .notFound :=
  ⟨(presigned_url_spec sampleStore ["a", "cats.jpg"] 1 [1, 2, 3]).1 (by decide),
   (presigned_url_spec sampleStore ["missing"] 1 []).2 (by decide)⟩

theorem perm_pair_cases {α : Type _} (a b : α) :
    ∀ l : List α, l.Perm [a, b] → l = [a, b] ∨ l = [b, a] := by
  intro l h
  match l, h with
  | [], h => simpa using h.length_eq
  | [x], h => simpa using h.length_eq
  | x :: y :: z :: t, h => simpa using h.length_eq
  | [x, y], h =>
    have hx : x = a ∨ x = b := List.mem_pair.mp (h.mem_iff.mp (by simp))
    rcases hx with h1 | h2
    · rw [h1] at h
      have hy : y = b := by
        simpa using List.perm_singleton.mp h.cons_inv
      rw [h1, hy]
      exact Or.inl rfl
    · rw [h2] at h
      have hswap : ([a, b] : List α).Perm [b, a] :=
        List.Perm.swap b a ([] : List α)
      have hy : y = a := by
        simpa using List.perm_singleton.mp (h.trans hswap).cons_inv
      rw [h2, hy]
      exact Or.inr rfl

theorem lexLe_cons_same (a : String) (as bs : Key) :
    lexLe (a :: as) (a :: bs) = lexLe as bs := by
  simp [lexLe]

theorem serializePath_cats (d : String) :
    serializePath [d, "cats.jpg"] = d ++ "/cats.jpg" := by
  show d ++ "/" ++ "cats.jpg" = d ++ "/cats.jpg"
  rw [String.append_assoc]
  exact congrArg (d ++ ·) rfl

theorem serializePath_nested (d : String) :
    serializePath [d, "nested", "really", "deep", "cats-2.jpg"] =
      d ++ "/nested/really/deep/cats-2.jpg" := by
  show d ++ "/" ++ serializePath ["nested", "really", "deep", "cats-2.jpg"]
    = d ++ "/nested/really/deep/cats-2.jpg"
  rw [show serializePath ["nested", "really", "deep", "cats-2.jpg"]
    = "nested/really/deep/cats-2.jpg" from rfl]
  rw [String.append_assoc]
  exact congrArg (d ++ ·) rfl

/-- Claim C2: when exactly the objects `dir/cats.jpg` and
`dir/nested/really/deep/cats-2.jpg` exist under the directory prefix `dir`,
`find(dir)` returns exactly those two forward-slash-serialized paths in
that order, and any two calls against unchanged state return the same
sequence. -/
theorem find_two_objects_scenario (st : ObjectStore) (dir : String)
    (h : ((st.map Prod.fst).filter (underPath [dir])).Perm
      [[dir, "cats.jpg"], [dir, "nested", "really", "deep", "cats-2.jpg"]]) :
    findPaths st [dir] =
        [dir ++ "/cats.jpg", dir ++ "/nested/really/deep/cats-2.jpg"] ∧
      findPaths st [dir] = findPaths st [dir] := by
  refine ⟨?_, rfl⟩
  have h12 : lexLe [dir, "cats.jpg"]
      [dir, "nested", "really", "deep", "cats-2.jpg"] = true := by
    rw [show ([dir, "cats.jpg"] : Key) = dir :: ["cats.jpg"] from rfl]
    rw [show ([dir, "nested", "really", "deep", "cats-2.jpg"] : Key)
      = dir :: ["nested", "really", "deep", "cats-2.jpg"] from rfl]
    rw [lexLe_cons_same]
    decide
  have h21 : lexLe [dir, "nested", "really", "deep", "cats-2.jpg"]
      [dir, "cats.jpg"] = false := by
    rw [show ([dir, "cats.jpg"] : Key) = dir :: ["cats.jpg"] from rfl]
    rw [show ([dir, "nested", "really", "deep", "cats-2.jpg"] : Key)
      = dir :: ["nested", "really", "deep", "cats-2.jpg"] from rfl]
    rw [lexLe_cons_same]
    decide
  have hcase := perm_pair_cases [dir, "cats.jpg"]
    [dir, "nested", "really", "deep", "cats-2.jpg"]
    ((st.map Prod.fst).filter (underPath [dir])) h
  rw [findPaths]
  rcases hcase with hc | hc
  · rw [hc]
    simp only [sortLex, insertLex, h12, if_pos, List.map_cons, List.map_nil]
    rw [serializePath_cats, serializePath_nested]
  · rw [hc]
    simp only [sortLex, insertLex, h21, Bool.false_eq_true, if_false,
      List.map_cons, List.map_nil]
    rw [serializePath_cats, serializePath_nested]

theorem find_two_objects_scenario_witness :
    findPaths sampleStore ["a"] =
        ["a" ++ "/cats.jpg", "a" ++ "/nested/really/deep/cats-2.jpg"] ∧
      findPaths sampleStore ["a"] = findPaths sampleStore ["a"] :=
  find_two_objects_scenario sampleStore "a"
    (by
      rw [show (sampleStore.map Prod.fst).filter (underPath ["a"])
        = [["a", "cats.jpg"], ["a", "nested", "really", "deep", "cats-2.jpg"]]
        from rfl])

end OpsmlStorage
